import Mathlib

set_option maxRecDepth 8000

/-!
Verification development for the FrankenText Markov sentence generator
(`src/main.c`).  The program interns whitespace-delimited token spellings
into dense integer ids through an open-addressed hash table, records for
each token the multiset of tokens observed immediately after it, and
samples bounded random walks over that successor graph to build candidate
sentences.

The embedding below translates the C code directly: byte strings are
`List Nat`, the fixed-size hash table is a total map `Nat → Int` (slot
value `-1` means empty), `exit(1)` paths (hash table full) are `none`,
and `rand()` is an explicit stream `Nat → Nat` threaded by a counter.
-/

/-- C byte strings (`char *`) as lists of byte values. -/
abbrev Str : Type := List Nat

/-- Constant `HASH_SIZE` from main.c: size of the open-addressing table. -/
def HASH_SIZE : Nat := 524287

/-- Constant `INIT_SUCC_CAP` from main.c: initial capacity of a successor list. -/
def INIT_SUCC_CAP : Nat := 4

/-- Modulus of C `unsigned long` arithmetic (64 bits). -/
def ULONG_MOD : Nat := 18446744073709551616

/-- Function `hash_str` from main.c: djb2 variant, `h = ((h << 5) + h) ^ c` over the
bytes of the string, in `unsigned long` arithmetic. -/
def hash_str (s : Str) : Nat :=
  s.foldl (fun h c => ((((h <<< 5) + h) % ULONG_MOD) ^^^ c) % ULONG_MOD) 5381

/-- The global interning/graph state of main.c: `tokens` (spelling of each
id, `tokens_size = tokens.length`), `hash_index` (the open-addressed table,
`-1` = empty slot), `succs` (successor spellings per id, sizes implicit as
lengths) and `succs_caps` (capacity of each successor array). -/
structure Model where
  tokens : List Str
  hash_index : Nat → Int
  succs : List (List Str)
  succs_caps : List Nat

/-- State after `hash_init()` and before any interning: empty vocabulary,
every hash slot `-1`. -/
def initModel : Model :=
  { tokens := [], hash_index := fun _ => -1, succs := [], succs_caps := [] }

/-- Probe loop of `hash_find`: scan slots `(h + probe) % HASH_SIZE`; an
empty slot means not-found (`-1`); a slot whose token compares equal to `s`
returns that id; fuel counts remaining probes (at most `HASH_SIZE`). -/
def findAux (tokens : List Str) (hi : Nat → Int) (s : Str) (h : Nat) : Nat → Nat → Int
  | _, 0 => -1
  | probe, fuel + 1 =>
    if hi ((h + probe) % HASH_SIZE) = -1 then -1
    else
      match tokens[(hi ((h + probe) % HASH_SIZE)).toNat]? with
      | some t => if t = s then hi ((h + probe) % HASH_SIZE)
                  else findAux tokens hi s h (probe + 1) fuel
      | none => findAux tokens hi s h (probe + 1) fuel

/-- Function `hash_find` from main.c: pure lookup, returns the id or `-1`. -/
def hash_find (st : Model) (s : Str) : Int :=
  findAux st.tokens st.hash_index s (hash_str s % HASH_SIZE) 0 HASH_SIZE

/-- Array update `hash_index[p] = v` on the functional table. -/
def updSlot (hi : Nat → Int) (p : Nat) (v : Int) : Nat → Int :=
  fun x => if x = p then v else hi x

/-- Probe loop of `hash_insert`: write `id` into the first empty slot on
the probe path; a full table (`fuel` exhausted) is the `exit(1)` path,
modelled as `none`. -/
def insertAux (hi : Nat → Int) (id : Nat) (h : Nat) : Nat → Nat → Option (Nat → Int)
  | _, 0 => none
  | probe, fuel + 1 =>
    if hi ((h + probe) % HASH_SIZE) = -1 then
      some (updSlot hi ((h + probe) % HASH_SIZE) (Int.ofNat id))
    else insertAux hi id h (probe + 1) fuel

/-- Function `token_id` from main.c: return the existing id when `hash_find` hits;
otherwise allocate the next sequential id, store the spelling, initialize
its successor list, and insert into the hash table. -/
def token_id (st : Model) (tok : Str) : Option (Nat × Model) :=
  match hash_find st tok with
  | Int.ofNat id => some (id, st)
  | Int.negSucc _ =>
    let id := st.tokens.length
    match insertAux st.hash_index id (hash_str tok % HASH_SIZE) 0 HASH_SIZE with
    | none => none
    | some hi' =>
      some (id, { tokens := st.tokens ++ [tok], hash_index := hi',
                  succs := st.succs ++ [[]], succs_caps := st.succs_caps ++ [0] })

/-- Function `append_to_succs` from main.c: intern `prev` (only), grow the successor
array (0 → `INIT_SUCC_CAP`, then doubling when full) and append the `curr`
spelling reference to `prev`'s successor list. -/
def append_to_succs (st : Model) (prev curr : Str) : Option Model :=
  match token_id st prev with
  | none => none
  | some (pid, st1) =>
    let cap := st1.succs_caps.getD pid 0
    let lst := st1.succs.getD pid []
    let cap' := if cap = 0 then INIT_SUCC_CAP else if cap ≤ lst.length then cap * 2 else cap
    some { st1 with succs := st1.succs.set pid (lst ++ [curr]),
                    succs_caps := st1.succs_caps.set pid cap' }

/-- Splitting as `strtok_r` does: the maximal non-empty runs of non-delimiter
bytes, in left-to-right order. -/
def strtok_split (delimiters : Str) (s : Str) : List Str :=
  (s.splitOnP (fun c => delimiters.contains c)).filter (fun t => t ≠ [])

/-- Loop body of `tokenize_and_fill_succs`: for each token, intern it, and
when a previous token exists record the edge `prev → tok`. -/
def tok_loop : Model → Option Str → List Str → Option Model
  | st, _, [] => some st
  | st, prev, tok :: rest =>
    match token_id st tok with
    | none => none
    | some (_, st1) =>
      match prev with
      | none => tok_loop st1 (some tok) rest
      | some p =>
        match append_to_succs st1 p tok with
        | none => none
        | some st2 => tok_loop st2 (some tok) rest

/-- Function `tokenize_and_fill_succs` from main.c. -/
def tokenize_and_fill_succs (delimiters : Str) (text : Str) (st : Model) : Option Model :=
  tok_loop st none (strtok_split delimiters text)

/-- Function `last_char` from main.c: final byte of a string, `'\0'` when empty. -/
def last_char (s : Str) : Nat := s.getLastD 0

/-- Function `token_ends_a_sentence` from main.c: last character is `.`, `?` or `!`. -/
def token_ends_a_sentence (s : Str) : Bool :=
  (last_char s == 46) || (last_char s == 63) || (last_char s == 33)

/-- The start-selection predicate of main.c
(`isalpha(c0) && isupper(c0)` on the first byte, C locale): `A`–`Z`. -/
def starts_uppercase (s : Str) : Bool :=
  decide (65 ≤ s.headD 0) && decide (s.headD 0 ≤ 90)

/-- Attempt loop of `random_token_id_that_starts_a_sentence`: up to the
given number of random draws; an empty vocabulary breaks out immediately.
Returns the accepted id (if any) and the advanced rand counter. -/
def start_rand_aux (st : Model) (R : Nat → Nat) : Nat → Nat → Option Nat × Nat
  | k, 0 => (none, k)
  | k, a + 1 =>
    if st.tokens.length = 0 then (none, k)
    else
      if starts_uppercase (st.tokens.getD (R k % st.tokens.length) []) then
        (some (R k % st.tokens.length), k + 1)
      else start_rand_aux st R (k + 1) a

/-- Function `random_token_id_that_starts_a_sentence` from main.c: 10000 random
attempts, then a deterministic ascending scan, then id 0. -/
def random_token_id_that_starts_a_sentence (st : Model) (R : Nat → Nat) (k : Nat) :
    Nat × Nat :=
  match start_rand_aux st R k 10000 with
  | (some i, k') => (i, k')
  | (none, k') =>
    match (List.range st.tokens.length).find? (fun i => starts_uppercase (st.tokens.getD i [])) with
    | some i => (i, k')
    | none => (0, k')

/-- Modelled from the spec (section 4.4 start selection): up to 10000
uniform-random draws from the full token id space accepting the first id
whose spelling starts with an uppercase alphabetic character; on exhausted
attempts or empty vocabulary, a deterministic linear scan in ascending id
order; if no token satisfies the predicate at all, id 0. -/
def spec_start_selection (st : Model) (R : Nat → Nat) (k : Nat) : Nat × Nat :=
  if st.tokens.length = 0 then (0, k)
  else
    match (List.range 10000).find?
        (fun a => starts_uppercase (st.tokens.getD (R (k + a) % st.tokens.length) [])) with
    | some a => (R (k + a) % st.tokens.length, k + a + 1)
    | none =>
      match (List.range st.tokens.length).find?
          (fun i => starts_uppercase (st.tokens.getD i [])) with
      | some i => (i, k + 10000)
      | none => (0, k + 10000)

/-- How a single sampler walk ended: last appended token carried terminal
punctuation, the current token had no successors, or the size bound was
reached. -/
inductive Outcome : Type where
  | terminal : Outcome
  | deadEnd : Outcome
  | truncated : Outcome
deriving DecidableEq

/-- The `while` loop of `generate_sentence`: guard `strlen(out) + 2 <
out_size`; intern/lookup the current token, stop on an empty successor
list (dead end), draw a random successor, stop before appending when
`strlen(out) + 1 + strlen(next) + 1 >= out_size` (truncation), append a
space and the successor, stop after appending a terminal token.  Returns
the output, the outcome, the (possibly updated) model state, the advanced
rand counter, and the number of appended tokens. -/
def walkAux (R : Nat → Nat) (out_size : Nat) :
    Model → Str → Str → Nat → Nat → Nat → Option (Str × Outcome × Model × Nat × Nat)
  | st, out, _, k, steps, 0 => some (out, Outcome.truncated, st, k, steps)
  | st, out, token, k, steps, fuel + 1 =>
    if out.length + 2 < out_size then
      match token_id st token with
      | none => none
      | some (curr_id, st1) =>
        let l := st1.succs.getD curr_id []
        if l.length = 0 then some (out, Outcome.deadEnd, st1, k, steps)
        else
          let next := l.getD (R k % l.length) []
          if out.length + 1 + next.length + 1 ≥ out_size then
            some (out, Outcome.truncated, st1, k + 1, steps)
          else
            let out' := out ++ 32 :: next
            if token_ends_a_sentence next then
              some (out', Outcome.terminal, st1, k + 1, steps + 1)
            else walkAux R out_size st1 out' next (k + 1) (steps + 1) fuel
    else some (out, Outcome.truncated, st, k, steps)

/-- The successor the walk draws at rand counter `k` for current id
`cid`: `succs[curr_id][rand() % nsucc]`. -/
def walkNext (R : Nat → Nat) (st1 : Model) (cid k : Nat) : Str :=
  (st1.succs.getD cid []).getD (R k % (st1.succs.getD cid []).length) []

/-- Result of one `generate_sentence` call: buffer content (`none` when
`out_size = 0` and nothing was written), the walk outcome, the final
global state, the advanced rand counter, and the appended-token count. -/
structure GenResult where
  out : Option Str
  outcome : Outcome
  st : Model
  rk : Nat
  steps : Nat

/-- Function `generate_sentence` from main.c, with the walk outcome kept as a ghost
observation: early return on `out_size == 0`; pick a start id; the start
token (`""` on an empty vocabulary) is `strncat`-ed with bound
`out_size - 1`; a terminal start token returns immediately; otherwise the
bounded walk runs (its fuel `out_size` is never exhausted, see the
termination theorem). -/
def generate_full (st : Model) (R : Nat → Nat) (k : Nat) (out_size : Nat) :
    Option GenResult :=
  if out_size = 0 then
    some { out := none, outcome := Outcome.truncated, st := st, rk := k, steps := 0 }
  else
    let p := random_token_id_that_starts_a_sentence st R k
    let token := if st.tokens.length = 0 then [] else st.tokens.getD p.1 []
    let out0 := token.take (out_size - 1)
    if token_ends_a_sentence token then
      some { out := some out0, outcome := Outcome.terminal, st := st, rk := p.2, steps := 0 }
    else
      (walkAux R out_size st out0 token p.2 0 out_size).map
        (fun w => { out := some w.1, outcome := w.2.1, st := w.2.2.1,
                    rk := w.2.2.2.1, steps := w.2.2.2.2 })

/-- The value `generate_sentence` exposes to its caller: the buffer (plus
the global state and rand counter it leaves behind).  The walk outcome is
not part of it. -/
def generate_sentence (st : Model) (R : Nat → Nat) (k : Nat) (out_size : Nat) :
    Option (Option Str × Model × Nat) :=
  (generate_full st R k out_size).map (fun r => (r.out, r.st, r.rk))

/-- The start token a `generate_sentence` call will emit first. -/
def start_token (st : Model) (R : Nat → Nat) (k : Nat) : Str :=
  if st.tokens.length = 0 then []
  else st.tokens.getD (random_token_id_that_starts_a_sentence st R k).1 []

/-- Observed consecutive pairs of a token sequence. -/
def consecutivePairs (l : List Str) : List (Str × Str) := l.zip l.tail

/-- Pairs still to be recorded by `tok_loop` given the pending `prev`. -/
def pairsFrom : Option Str → List Str → List (Str × Str)
  | none, toks => consecutivePairs toks
  | some p, toks => consecutivePairs (p :: toks)

/-- The successors of spelling `a` among a list of observed pairs, in
order, with multiplicity. -/
def succsInPairs (ps : List (Str × Str)) (a : Str) : List Str :=
  ps.filterMap (fun e => if e.1 = a then some e.2 else none)

/-- The successors of spelling `a` over a token sequence, in order, with
multiplicity. -/
def succsIn (toks : List Str) (a : Str) : List Str :=
  succsInPairs (consecutivePairs toks) a

/-- Hash-table well-formedness: every slot is empty or holds a valid id. -/
def WF (st : Model) : Prop :=
  ∀ i : Nat, st.hash_index i = -1 ∨
    ∃ j : Nat, st.hash_index i = Int.ofNat j ∧ j < st.tokens.length

/-- The interner/graph invariant maintained by the build pass: well-formed
slots, duplicate-free spellings, successor arrays aligned with the
vocabulary, and every stored spelling retrievable at its own id. -/
structure BuildInv (st : Model) : Prop where
  wf : WF st
  nodup : st.tokens.Nodup
  alignS : st.succs.length = st.tokens.length
  alignC : st.succs_caps.length = st.tokens.length
  retr : ∀ i s0, st.tokens[i]? = some s0 → hash_find st s0 = Int.ofNat i

/-- ASCII bytes of a Lean string literal (used for concrete corpora). -/
def strBytes (s : String) : Str := s.data.map Char.toNat

/-- A concrete deterministic rand stream. -/
def R0 : Nat → Nat := fun _ => 0

def aStr : Str := [97]

def bStr : Str := [98]

/-- State after interning `"a"` into the empty model. -/
def demoSt1 : Model := (token_id initModel aStr).elim initModel (fun q => q.2)

/-- State after additionally interning `"b"`. -/
def demoSt2 : Model := (token_id demoSt1 bStr).elim demoSt1 (fun q => q.2)

/-- State after `append_to_succs("a", "b")` on the empty model. -/
def stAB : Model := (append_to_succs initModel aStr bStr).elim initModel id

/-- The delimiters main.c passes: space, LF, CR. -/
def delimSp : Str := [32, 10, 13]

def corpusA : Str := strBytes "A b"

def corpusB : Str := strBytes "A b c"

/-- Model built from the corpus `"A b"`. -/
def stA : Model := (tokenize_and_fill_succs delimSp corpusA initModel).elim initModel id

/-- Model built from the corpus `"A b c"`. -/
def stB : Model := (tokenize_and_fill_succs delimSp corpusB initModel).elim initModel id

def dfltRes : GenResult :=
  { out := none, outcome := Outcome.truncated, st := initModel, rk := 0, steps := 0 }

/-- A run over `stA` with buffer size 6: ends in a dead end with `"A b"`. -/
def rA : GenResult := (generate_full stA R0 0 6).elim dfltRes id

/-- A run over `stB` with buffer size 6: truncated, also with `"A b"`. -/
def rB : GenResult := (generate_full stB R0 0 6).elim dfltRes id

/-- A run over the empty vocabulary with buffer size 3. -/
def rEmpty : GenResult := (generate_full initModel R0 0 3).elim dfltRes id

def corpus9 : Str := strBytes "Alice saw Bob. Bob ran!"

/-- Model built from the tokenizer-coverage corpus. -/
def st9 : Model := (tokenize_and_fill_succs delimSp corpus9 initModel).elim initModel id

def corpus3 : Str := strBytes "x y x y x z"

/-- Model for the successor-frequency scenario: `x` is followed by `y`
twice and by `z` once. -/
def st3 : Model := (tokenize_and_fill_succs delimSp corpus3 initModel).elim initModel id

/-! Section: Hash-table lemmas -/

theorem ofNat_ne_negOne (j : Nat) : Int.ofNat j ≠ -1 := fun h =>
  Int.noConfusion (show Int.ofNat j = Int.negSucc 0 from h)

theorem toNat_ofNat' (n : Nat) : (Int.ofNat n).toNat = n := rfl

theorem updSlot_same (hi : Nat → Int) (p : Nat) (v : Int) : updSlot hi p v p = v := by
  simp [updSlot]

theorem updSlot_other (hi : Nat → Int) (p : Nat) (v : Int) (x : Nat) (hx : x ≠ p) :
    updSlot hi p v x = hi x := by
  simp [updSlot, hx]

theorem findAux_succ_empty (tokens : List Str) (hi : Nat → Int) (s : Str) (h probe fuel : Nat)
    (hempty : hi ((h + probe) % HASH_SIZE) = -1) :
    findAux tokens hi s h probe (fuel + 1) = -1 := by
  rw [findAux, if_pos hempty]

theorem findAux_succ_slot (tokens : List Str) (hi : Nat → Int) (s t0 : Str)
    (h probe fuel j : Nat) (hj : hi ((h + probe) % HASH_SIZE) = Int.ofNat j)
    (ht0 : tokens[j]? = some t0) :
    findAux tokens hi s h probe (fuel + 1) =
      if t0 = s then Int.ofNat j else findAux tokens hi s h (probe + 1) fuel := by
  rw [findAux, hj, if_neg (ofNat_ne_negOne j), toNat_ofNat', ht0]

theorem insertAux_succ_empty (hi : Nat → Int) (id h probe fuel : Nat)
    (hempty : hi ((h + probe) % HASH_SIZE) = -1) :
    insertAux hi id h probe (fuel + 1) =
      some (updSlot hi ((h + probe) % HASH_SIZE) (Int.ofNat id)) := by
  rw [insertAux, if_pos hempty]

theorem insertAux_succ_busy (hi : Nat → Int) (id h probe fuel : Nat)
    (hbusy : hi ((h + probe) % HASH_SIZE) ≠ -1) :
    insertAux hi id h probe (fuel + 1) = insertAux hi id h (probe + 1) fuel := by
  rw [insertAux, if_neg hbusy]

theorem findAux_valid (tokens : List Str) (hi : Nat → Int) (s : Str) (h : Nat)
    (hv : ∀ i, hi i = -1 ∨ ∃ j, hi i = Int.ofNat j ∧ j < tokens.length) :
    ∀ fuel probe, findAux tokens hi s h probe fuel = -1 ∨
      ∃ j, findAux tokens hi s h probe fuel = Int.ofNat j ∧ j < tokens.length ∧
        tokens[j]? = some s := by
  intro fuel
  induction fuel with
  | zero => intro probe; exact Or.inl rfl
  | succ fuel ih =>
    intro probe
    by_cases hempty : hi ((h + probe) % HASH_SIZE) = -1
    · exact Or.inl (findAux_succ_empty tokens hi s h probe fuel hempty)
    · rcases hv ((h + probe) % HASH_SIZE) with h1 | ⟨j, hj, hjlt⟩
      · exact absurd h1 hempty
      · have ht0 : tokens[j]? = some tokens[j] := List.getElem?_eq_getElem hjlt
        rw [findAux_succ_slot tokens hi s tokens[j] h probe fuel j hj ht0]
        by_cases hts : tokens[j] = s
        · rw [if_pos hts]
          exact Or.inr ⟨j, rfl, hjlt, by rw [ht0, hts]⟩
        · rw [if_neg hts]
          exact ih (probe + 1)

theorem insertAux_spec (hi : Nat → Int) (id : Nat) (h : Nat) :
    ∀ fuel probe hi', insertAux hi id h probe fuel = some hi' →
      ∃ p, hi p = -1 ∧ hi' = updSlot hi p (Int.ofNat id) := by
  intro fuel
  induction fuel with
  | zero => intro probe hi' hins; simp [insertAux] at hins
  | succ fuel ih =>
    intro probe hi' hins
    by_cases hempty : hi ((h + probe) % HASH_SIZE) = -1
    · rw [insertAux_succ_empty hi id h probe fuel hempty] at hins
      exact ⟨(h + probe) % HASH_SIZE, hempty, (Option.some.inj hins).symm⟩
    · rw [insertAux_succ_busy hi id h probe fuel hempty] at hins
      exact ih (probe + 1) hi' hins

theorem findAux_preserved (tokens : List Str) (hi : Nat → Int) (t s : Str) (h p : Nat)
    (hv : ∀ i, hi i = -1 ∨ ∃ j, hi i = Int.ofNat j ∧ j < tokens.length)
    (hp : hi p = -1) :
    ∀ fuel probe j, findAux tokens hi t h probe fuel = Int.ofNat j →
      findAux (tokens ++ [s]) (updSlot hi p (Int.ofNat tokens.length)) t h probe fuel =
        Int.ofNat j := by
  intro fuel
  induction fuel with
  | zero =>
    intro probe j hfind
    exact absurd hfind.symm (ofNat_ne_negOne j)
  | succ fuel ih =>
    intro probe j hfind
    by_cases hempty : hi ((h + probe) % HASH_SIZE) = -1
    · rw [findAux_succ_empty tokens hi t h probe fuel hempty] at hfind
      exact absurd hfind.symm (ofNat_ne_negOne j)
    · have hne : (h + probe) % HASH_SIZE ≠ p := fun hip => hempty (hip ▸ hp)
      have hslot : updSlot hi p (Int.ofNat tokens.length) ((h + probe) % HASH_SIZE) =
          hi ((h + probe) % HASH_SIZE) := updSlot_other _ _ _ _ hne
      rcases hv ((h + probe) % HASH_SIZE) with h1 | ⟨j', hj', hjlt'⟩
      · exact absurd h1 hempty
      · have ht0 : tokens[j']? = some tokens[j'] := List.getElem?_eq_getElem hjlt'
        have ht0' : (tokens ++ [s])[j']? = some tokens[j'] := by
          rw [List.getElem?_append_left hjlt']; exact ht0
        rw [findAux_succ_slot tokens hi t tokens[j'] h probe fuel j' hj' ht0] at hfind
        rw [findAux_succ_slot (tokens ++ [s]) (updSlot hi p (Int.ofNat tokens.length)) t
          tokens[j'] h probe fuel j' (by rw [hslot]; exact hj') ht0']
        by_cases hts : tokens[j'] = t
        · rw [if_pos hts] at hfind ⊢; exact hfind
        · rw [if_neg hts] at hfind ⊢; exact ih (probe + 1) j hfind

theorem findAux_insert_new (tokens : List Str) (hi : Nat → Int) (s : Str) (h : Nat)
    (hv : ∀ i, hi i = -1 ∨ ∃ j, hi i = Int.ofNat j ∧ j < tokens.length) :
    ∀ fuel probe hi', findAux tokens hi s h probe fuel = -1 →
      insertAux hi tokens.length h probe fuel = some hi' →
      findAux (tokens ++ [s]) hi' s h probe fuel = Int.ofNat tokens.length := by
  intro fuel
  induction fuel with
  | zero =>
    intro probe hi' _ hins
    simp [insertAux] at hins
  | succ fuel ih =>
    intro probe hi' hfind hins
    by_cases hempty : hi ((h + probe) % HASH_SIZE) = -1
    · rw [insertAux_succ_empty hi tokens.length h probe fuel hempty] at hins
      have hhi' : hi' = updSlot hi ((h + probe) % HASH_SIZE) (Int.ofNat tokens.length) :=
        (Option.some.inj hins).symm
      have hcat : (tokens ++ [s])[tokens.length]? = some s := List.getElem?_concat_length tokens s
      rw [findAux_succ_slot (tokens ++ [s]) hi' s s h probe fuel tokens.length
        (by rw [hhi']; exact updSlot_same _ _ _) hcat]
      rw [if_pos rfl]
    · rw [insertAux_succ_busy hi tokens.length h probe fuel hempty] at hins
      obtain ⟨p, hp, hupd⟩ := insertAux_spec hi tokens.length h fuel (probe + 1) hi' hins
      have hne : (h + probe) % HASH_SIZE ≠ p := fun hip => hempty (hip ▸ hp)
      have hslot : hi' ((h + probe) % HASH_SIZE) = hi ((h + probe) % HASH_SIZE) := by
        rw [hupd]; exact updSlot_other _ _ _ _ hne
      rcases hv ((h + probe) % HASH_SIZE) with h1 | ⟨j', hj', hjlt'⟩
      · exact absurd h1 hempty
      · have ht0 : tokens[j']? = some tokens[j'] := List.getElem?_eq_getElem hjlt'
        have ht0' : (tokens ++ [s])[j']? = some tokens[j'] := by
          rw [List.getElem?_append_left hjlt']; exact ht0
        rw [findAux_succ_slot tokens hi s tokens[j'] h probe fuel j' hj' ht0] at hfind
        by_cases hts : tokens[j'] = s
        · rw [if_pos hts] at hfind
          exact absurd hfind (ofNat_ne_negOne j')
        · rw [if_neg hts] at hfind
          rw [findAux_succ_slot (tokens ++ [s]) hi' s tokens[j'] h probe fuel j'
            (by rw [hslot]; exact hj') ht0']
          rw [if_neg hts]
          exact ih (probe + 1) hi' hfind hins

theorem hash_find_cases (st : Model) (s : Str) (hwf : WF st) :
    hash_find st s = -1 ∨
      ∃ j, hash_find st s = Int.ofNat j ∧ j < st.tokens.length ∧ st.tokens[j]? = some s :=
  findAux_valid st.tokens st.hash_index s (hash_str s % HASH_SIZE) hwf HASH_SIZE 0

theorem token_id_of_found (st : Model) (s : Str) (j : Nat)
    (hf : hash_find st s = Int.ofNat j) : token_id st s = some (j, st) := by
  simp only [token_id, hf]

/-! Section: Interner lemmas -/

theorem wf_init : WF initModel := fun _ => Or.inl rfl

theorem buildInv_init : BuildInv initModel :=
  ⟨wf_init, List.nodup_nil, rfl, rfl, by intro i s0 hsome; simp [initModel] at hsome⟩

theorem wf_insert (st : Model) (s : Str) (hi' : Nat → Int) (pp : Nat)
    (hwf : WF st) (hp : st.hash_index pp = -1)
    (hupd : hi' = updSlot st.hash_index pp (Int.ofNat st.tokens.length)) :
    WF { tokens := st.tokens ++ [s], hash_index := hi',
         succs := st.succs ++ [[]], succs_caps := st.succs_caps ++ [0] } := by
  intro i
  show hi' i = -1 ∨ ∃ j, hi' i = Int.ofNat j ∧ j < (st.tokens ++ [s]).length
  rw [hupd]
  by_cases hip : i = pp
  · subst hip
    rw [updSlot_same]
    exact Or.inr ⟨st.tokens.length, rfl, by simp⟩
  · rw [updSlot_other _ _ _ _ hip]
    rcases hwf i with h1 | ⟨j, hj, hjlt⟩
    · exact Or.inl h1
    · exact Or.inr ⟨j, hj, by simp; omega⟩

theorem token_id_new (st : Model) (s : Str) (id : Nat) (st' : Model) (hwf : WF st)
    (hf : hash_find st s = -1) (h : token_id st s = some (id, st')) :
    id = st.tokens.length ∧ st'.tokens = st.tokens ++ [s] ∧
      st'.succs = st.succs ++ [[]] ∧ st'.succs_caps = st.succs_caps ++ [0] ∧
      WF st' ∧ hash_find st' s = Int.ofNat st.tokens.length ∧
      (∀ t j, hash_find st t = Int.ofNat j → hash_find st' t = Int.ofNat j) := by
  have hf' : hash_find st s = Int.negSucc 0 := hf
  simp only [token_id, hf'] at h
  cases hins : insertAux st.hash_index st.tokens.length (hash_str s % HASH_SIZE) 0 HASH_SIZE with
  | none => rw [hins] at h; exact absurd h (by simp)
  | some hi' =>
    rw [hins] at h
    simp only [Option.some.injEq, Prod.mk.injEq] at h
    obtain ⟨hid, hst⟩ := h
    subst hid
    subst hst
    obtain ⟨pp, hp, hupd⟩ := insertAux_spec st.hash_index st.tokens.length
      (hash_str s % HASH_SIZE) HASH_SIZE 0 hi' hins
    refine ⟨rfl, rfl, rfl, rfl, ?_, ?_, ?_⟩
    · exact wf_insert st s hi' pp hwf hp hupd
    · exact findAux_insert_new st.tokens st.hash_index s (hash_str s % HASH_SIZE) hwf
        HASH_SIZE 0 hi' hf hins
    · intro t j hfj
      show findAux (st.tokens ++ [s]) hi' t (hash_str t % HASH_SIZE) 0 HASH_SIZE = Int.ofNat j
      rw [hupd]
      exact findAux_preserved st.tokens st.hash_index t s (hash_str t % HASH_SIZE) pp hwf hp
        HASH_SIZE 0 j hfj

theorem token_id_buildInv (st : Model) (s : Str) (id : Nat) (st' : Model)
    (hInv : BuildInv st) (h : token_id st s = some (id, st')) :
    BuildInv st' ∧ hash_find st' s = Int.ofNat id ∧ st'.tokens[id]? = some s ∧
      st.tokens.length ≤ st'.tokens.length ∧
      (st' = st ∨ (hash_find st s = -1 ∧ id = st.tokens.length ∧
        st'.tokens = st.tokens ++ [s] ∧ st'.succs = st.succs ++ [[]] ∧
        st'.succs_caps = st.succs_caps ++ [0])) := by
  rcases hash_find_cases st s hInv.wf with hneg | ⟨j, hj, hjlt, hjs⟩
  · obtain ⟨hid, htk, hsc, hcp, hwf', hfind', hpres⟩ := token_id_new st s id st' hInv.wf hneg h
    subst hid
    have hsnot : s ∉ st.tokens := by
      intro hmem
      rcases List.mem_iff_getElem?.mp hmem with ⟨i, hisome⟩
      have h1 := hInv.retr i s hisome
      rw [hneg] at h1
      exact ofNat_ne_negOne i h1.symm
    refine ⟨⟨hwf', ?_, ?_, ?_, ?_⟩, hfind', ?_, ?_,
      Or.inr ⟨hneg, rfl, htk, hsc, hcp⟩⟩
    · rw [htk]
      exact List.Nodup.append hInv.nodup (List.nodup_singleton s)
        (fun a ha hb => hsnot ((List.mem_singleton.mp hb) ▸ ha))
    · rw [htk, hsc]
      simp [hInv.alignS]
    · rw [htk, hcp]
      simp [hInv.alignC]
    · intro i s0 hsome
      rw [htk] at hsome
      by_cases hilt : i < st.tokens.length
      · rw [List.getElem?_append_left hilt] at hsome
        exact hpres s0 i (hInv.retr i s0 hsome)
      · have hle : st.tokens.length ≤ i := Nat.le_of_not_lt hilt
        rw [List.getElem?_append_right hle] at hsome
        cases hd : i - st.tokens.length with
        | zero =>
          rw [hd] at hsome
          simp only [List.getElem?_cons_zero, Option.some.injEq] at hsome
          have hieq : i = st.tokens.length := by omega
          rw [← hsome, hieq]
          exact hfind'
        | succ n =>
          rw [hd] at hsome
          simp at hsome
    · rw [htk]
      exact List.getElem?_concat_length st.tokens s
    · rw [htk]
      simp
  · have hfnd := token_id_of_found st s j hj
    rw [hfnd] at h
    simp only [Option.some.injEq, Prod.mk.injEq] at h
    obtain ⟨hj1, hst⟩ := h
    subst hj1
    subst hst
    exact ⟨hInv, hj, hjs, Nat.le_refl _, Or.inl rfl⟩

theorem mem_token_found (st : Model) (p : Str) (hInv : BuildInv st) (hp : p ∈ st.tokens) :
    ∃ i, st.tokens[i]? = some p ∧ hash_find st p = Int.ofNat i := by
  rcases List.mem_iff_getElem?.mp hp with ⟨i, hisome⟩
  exact ⟨i, hisome, hInv.retr i p hisome⟩

theorem append_to_succs_found (st : Model) (p c : Str) (pid : Nat)
    (hf : hash_find st p = Int.ofNat pid) :
    append_to_succs st p c = some
      { st with succs := st.succs.set pid ((st.succs.getD pid []) ++ [c]),
                succs_caps := st.succs_caps.set pid
                  (if st.succs_caps.getD pid 0 = 0 then INIT_SUCC_CAP
                   else if st.succs_caps.getD pid 0 ≤ (st.succs.getD pid []).length then
                     st.succs_caps.getD pid 0 * 2
                   else st.succs_caps.getD pid 0) } := by
  simp only [append_to_succs, token_id_of_found st p pid hf]

/-! Section: Tokenizer / successor-list lemmas -/

theorem pairsFrom_none_cons (t : Str) (r : List Str) :
    pairsFrom none (t :: r) = pairsFrom (some t) r := rfl

theorem pairsFrom_some_cons (p t : Str) (r : List Str) :
    pairsFrom (some p) (t :: r) = (p, t) :: pairsFrom (some t) r := rfl

theorem succsInPairs_cons (x y : Str) (ps : List (Str × Str)) (a : Str) :
    succsInPairs ((x, y) :: ps) a =
      (if x = a then [y] else []) ++ succsInPairs ps a := by
  by_cases h : x = a <;> simp [succsInPairs, h]

theorem getD_append_emptyElem (l : List (List Str)) (a : Nat) :
    (l ++ [([] : List Str)]).getD a [] = l.getD a [] := by
  simp only [List.getD_eq_getElem?_getD]
  by_cases h : a < l.length
  · rw [List.getElem?_append_left h]
  · have hle : l.length ≤ a := Nat.le_of_not_lt h
    rw [List.getElem?_append_right hle, List.getElem?_eq_none (by omega : l.length ≤ a)]
    cases hd : a - l.length with
    | zero => simp [hd]
    | succ n => simp [hd]

theorem getD_set_self {α : Type} (l : List α) (i : Nat) (x d : α) (h : i < l.length) :
    (l.set i x).getD i d = x := by
  simp [List.getD_eq_getElem?_getD, List.getElem?_set, h]

theorem getD_set_other {α : Type} (l : List α) (i j : Nat) (x d : α) (hij : i ≠ j) :
    (l.set i x).getD j d = l.getD j d := by
  simp [List.getD_eq_getElem?_getD, List.getElem?_set, hij]

theorem append_props (st1 : Model) (p c : Str) (ip : Nat) (hInv1 : BuildInv st1)
    (hfp : hash_find st1 p = Int.ofNat ip) (st2 : Model)
    (happ : append_to_succs st1 p c = some st2) :
    BuildInv st2 ∧ st2.tokens = st1.tokens ∧
      st2.succs = st1.succs.set ip ((st1.succs.getD ip []) ++ [c]) := by
  rw [append_to_succs_found st1 p c ip hfp] at happ
  obtain rfl : st2 = _ := (Option.some.inj happ).symm
  refine ⟨⟨hInv1.wf, hInv1.nodup, ?_, ?_, hInv1.retr⟩, rfl, rfl⟩
  · show (st1.succs.set ip ((st1.succs.getD ip []) ++ [c])).length = st1.tokens.length
    rw [List.length_set]; exact hInv1.alignS
  · show (st1.succs_caps.set ip _).length = st1.tokens.length
    rw [List.length_set]; exact hInv1.alignC

theorem tok_loop_fidelity :
    ∀ (toks : List Str) (st0 : Model) (prev : Option Str) (st : Model),
      BuildInv st0 →
      (∀ p, prev = some p → p ∈ st0.tokens) →
      tok_loop st0 prev toks = some st →
      BuildInv st ∧ (∃ tl, st.tokens = st0.tokens ++ tl) ∧
        (∀ a s0, st.tokens[a]? = some s0 →
          st.succs[a]? =
            some ((st0.succs.getD a []) ++ succsInPairs (pairsFrom prev toks) s0)) := by
  intro toks
  induction toks with
  | nil =>
    intro st0 prev st hInv hprev hloop
    rw [tok_loop] at hloop
    obtain rfl : st0 = st := Option.some.inj hloop
    refine ⟨hInv, ⟨[], by simp⟩, ?_⟩
    intro a s0 hs0
    obtain ⟨ha, -⟩ := List.getElem?_eq_some_iff.mp hs0
    have ha' : a < st0.succs.length := by rw [hInv.alignS]; exact ha
    have hpz : succsInPairs (pairsFrom prev []) s0 = [] := by
      cases prev <;> rfl
    rw [hpz, List.append_nil]
    simp [List.getD_eq_getElem?_getD, List.getElem?_eq_getElem ha']
  | cons tok rest ih =>
    intro st0 prev st hInv hprev hloop
    rw [tok_loop] at hloop
    cases htid : token_id st0 tok with
    | none =>
      rw [htid] at hloop
      exact Option.noConfusion hloop
    | some pr =>
      obtain ⟨tid, st1⟩ := pr
      rw [htid] at hloop
      obtain ⟨hInv1, hfind1, hsome1, hlen1, hcase1⟩ :=
        token_id_buildInv st0 tok tid st1 hInv htid
      have hmem1 : tok ∈ st1.tokens := List.getElem?_mem hsome1
      have hgetD1 : ∀ a : Nat, st1.succs.getD a [] = st0.succs.getD a [] := by
        intro a
        rcases hcase1 with heq | ⟨-, -, -, hsc, -⟩
        · rw [heq]
        · rw [hsc]; exact getD_append_emptyElem st0.succs a
      have htk01 : ∃ tl0, st1.tokens = st0.tokens ++ tl0 := by
        rcases hcase1 with heq | ⟨-, -, htk, -, -⟩
        · exact ⟨[], by rw [heq]; simp⟩
        · exact ⟨[tok], htk⟩
      cases prev with
      | none =>
        obtain ⟨hInvF, ⟨tl, htl⟩, hfid⟩ :=
          ih st1 (some tok) st hInv1 (fun q hq => by cases hq; exact hmem1) hloop
        obtain ⟨tl0, htl0⟩ := htk01
        refine ⟨hInvF, ⟨tl0 ++ tl, by rw [htl, htl0, List.append_assoc]⟩, ?_⟩
        intro a s0 hs0
        rw [pairsFrom_none_cons]
        have hstep := hfid a s0 hs0
        rw [hgetD1 a] at hstep
        exact hstep
      | some p =>
        have hpmem1 : p ∈ st1.tokens := by
          obtain ⟨tl0, htl0⟩ := htk01
          rw [htl0]
          exact List.mem_append_left tl0 (hprev p rfl)
        obtain ⟨ip, hipsome, hfp⟩ := mem_token_found st1 p hInv1 hpmem1
        obtain ⟨hiplt, -⟩ := List.getElem?_eq_some_iff.mp hipsome
        have hloop2 : (match append_to_succs st1 p tok with
            | none => none
            | some st2 => tok_loop st2 (some tok) rest) = some st := hloop
        cases happ : append_to_succs st1 p tok with
        | none =>
          rw [happ] at hloop2
          exact Option.noConfusion hloop2
        | some st2 =>
          rw [happ] at hloop2
          obtain ⟨hInv2, htk2, hsc2⟩ := append_props st1 p tok ip hInv1 hfp st2 happ
          have hmem2 : tok ∈ st2.tokens := htk2 ▸ hmem1
          obtain ⟨hInvF, ⟨tl, htl⟩, hfid⟩ :=
            ih st2 (some tok) st hInv2 (fun q hq => by cases hq; exact hmem2) hloop2
          obtain ⟨tl0, htl0⟩ := htk01
          refine ⟨hInvF, ⟨tl0 ++ tl, by rw [htl, htk2, htl0, List.append_assoc]⟩, ?_⟩
          intro a s0 hs0
          rw [pairsFrom_some_cons, succsInPairs_cons]
          have hstep := hfid a s0 hs0
          have hipst : st.tokens[ip]? = some p := by
            rw [htl, htk2, List.getElem?_append_left hiplt]
            exact hipsome
          by_cases hap : a = ip
          · subst hap
            have hs0p : p = s0 := by
              rw [hipst] at hs0
              exact Option.some.inj hs0
            rw [if_pos hs0p]
            have h2 : st2.succs.getD a [] = st1.succs.getD a [] ++ [tok] := by
              rw [hsc2]
              exact getD_set_self st1.succs a _ _ (by rw [hInv1.alignS]; exact hiplt)
            rw [h2, hgetD1 a] at hstep
            rw [hstep]
            simp
          · have hps0 : ¬ p = s0 := by
              intro hp
              subst hp
              apply hap
              obtain ⟨halt, -⟩ := List.getElem?_eq_some_iff.mp hs0
              exact List.getElem?_inj halt hInvF.nodup (by rw [hs0, hipst])
            rw [if_neg hps0]
            have h2 : st2.succs.getD a [] = st1.succs.getD a [] := by
              rw [hsc2]
              exact getD_set_other st1.succs ip a _ _ (fun hh => hap hh.symm)
            rw [h2, hgetD1 a] at hstep
            rw [hstep]
            simp

/-! Section: Walk lemmas -/

theorem walkAux_guard_fail (R : Nat → Nat) (n : Nat) (st : Model) (out token : Str)
    (k steps fuel : Nat) (hg : ¬ out.length + 2 < n) :
    walkAux R n st out token k steps (fuel + 1) = some (out, Outcome.truncated, st, k, steps) := by
  rw [walkAux, if_neg hg]

theorem walkAux_succ_none (R : Nat → Nat) (n : Nat) (st : Model) (out token : Str)
    (k steps fuel : Nat) (hg : out.length + 2 < n)
    (htid : token_id st token = none) :
    walkAux R n st out token k steps (fuel + 1) = none := by
  rw [walkAux, if_pos hg, htid]

theorem walkAux_succ_some (R : Nat → Nat) (n : Nat) (st st1 : Model) (out token : Str)
    (k steps fuel cid : Nat) (hg : out.length + 2 < n)
    (htid : token_id st token = some (cid, st1)) :
    walkAux R n st out token k steps (fuel + 1) =
      (if (st1.succs.getD cid []).length = 0 then some (out, Outcome.deadEnd, st1, k, steps)
       else
         if out.length + 1 + (walkNext R st1 cid k).length + 1 ≥ n then
           some (out, Outcome.truncated, st1, k + 1, steps)
         else if token_ends_a_sentence (walkNext R st1 cid k) then
           some (out ++ 32 :: walkNext R st1 cid k, Outcome.terminal, st1, k + 1, steps + 1)
         else walkAux R n st1 (out ++ 32 :: walkNext R st1 cid k) (walkNext R st1 cid k)
           (k + 1) (steps + 1) fuel) := by
  rw [walkAux, if_pos hg, htid]
  rfl

theorem walkAux_stable (R : Nat → Nat) (n : Nat) :
    ∀ f1 f2 st (out token : Str) k steps,
      n ≤ out.length + 2 + f1 → n ≤ out.length + 2 + f2 →
      walkAux R n st out token k steps f1 = walkAux R n st out token k steps f2 := by
  intro f1
  induction f1 with
  | zero =>
    intro f2 st out token k steps h1 h2
    have hg : ¬ out.length + 2 < n := by omega
    cases f2 with
    | zero => rfl
    | succ g2 =>
      rw [walkAux_guard_fail R n st out token k steps g2 hg]
      rfl
  | succ g1 ih =>
    intro f2 st out token k steps h1 h2
    by_cases hg : out.length + 2 < n
    · obtain ⟨g2, rfl⟩ : ∃ g2, f2 = g2 + 1 := by
        cases f2 with
        | zero => omega
        | succ g2 => exact ⟨g2, rfl⟩
      cases htid : token_id st token with
      | none =>
        rw [walkAux_succ_none R n st out token k steps g1 hg htid,
            walkAux_succ_none R n st out token k steps g2 hg htid]
      | some pr =>
        obtain ⟨cid, st1⟩ := pr
        rw [walkAux_succ_some R n st st1 out token k steps g1 cid hg htid,
            walkAux_succ_some R n st st1 out token k steps g2 cid hg htid]
        by_cases hdead : (st1.succs.getD cid []).length = 0
        · rw [if_pos hdead, if_pos hdead]
        · rw [if_neg hdead, if_neg hdead]
          by_cases htrunc : out.length + 1 + (walkNext R st1 cid k).length + 1 ≥ n
          · rw [if_pos htrunc, if_pos htrunc]
          · rw [if_neg htrunc, if_neg htrunc]
            by_cases hterm : token_ends_a_sentence (walkNext R st1 cid k) = true
            · rw [if_pos hterm, if_pos hterm]
            · rw [if_neg hterm, if_neg hterm]
              have hlen : out.length + 1 ≤ (out ++ 32 :: walkNext R st1 cid k).length := by
                simp
              exact ih g2 st1 (out ++ 32 :: walkNext R st1 cid k) (walkNext R st1 cid k)
                (k + 1) (steps + 1) (by omega) (by omega)
    · obtain rfl | ⟨g2, rfl⟩ : f2 = 0 ∨ ∃ g2, f2 = g2 + 1 := by
        cases f2 with
        | zero => exact Or.inl rfl
        | succ g2 => exact Or.inr ⟨g2, rfl⟩
      · rw [walkAux_guard_fail R n st out token k steps g1 hg]
        rfl
      · rw [walkAux_guard_fail R n st out token k steps g1 hg,
            walkAux_guard_fail R n st out token k steps g2 hg]

theorem walkAux_steps_le (R : Nat → Nat) (n : Nat) :
    ∀ fuel st (out token : Str) k steps o oc st' k' sp,
      walkAux R n st out token k steps fuel = some (o, oc, st', k', sp) →
      sp ≤ steps + (n - out.length) := by
  intro fuel
  induction fuel with
  | zero =>
    intro st out token k steps o oc st' k' sp h
    simp only [walkAux, Option.some.injEq, Prod.mk.injEq] at h
    omega
  | succ g ih =>
    intro st out token k steps o oc st' k' sp h
    by_cases hg : out.length + 2 < n
    · cases htid : token_id st token with
      | none =>
        rw [walkAux_succ_none R n st out token k steps g hg htid] at h
        exact Option.noConfusion h
      | some pr =>
        obtain ⟨cid, st1⟩ := pr
        rw [walkAux_succ_some R n st st1 out token k steps g cid hg htid] at h
        by_cases hdead : (st1.succs.getD cid []).length = 0
        · rw [if_pos hdead] at h
          simp only [Option.some.injEq, Prod.mk.injEq] at h
          omega
        · rw [if_neg hdead] at h
          by_cases htrunc : out.length + 1 + (walkNext R st1 cid k).length + 1 ≥ n
          · rw [if_pos htrunc] at h
            simp only [Option.some.injEq, Prod.mk.injEq] at h
            omega
          · rw [if_neg htrunc] at h
            by_cases hterm : token_ends_a_sentence (walkNext R st1 cid k) = true
            · rw [if_pos hterm] at h
              simp only [Option.some.injEq, Prod.mk.injEq] at h
              omega
            · rw [if_neg hterm] at h
              have hrec := ih st1 (out ++ 32 :: walkNext R st1 cid k)
                (walkNext R st1 cid k) (k + 1) (steps + 1) o oc st' k' sp h
              have hlen : (out ++ 32 :: walkNext R st1 cid k).length =
                  out.length + (walkNext R st1 cid k).length + 1 := by
                simp
                omega
              rw [hlen] at hrec
              omega
    · rw [walkAux_guard_fail R n st out token k steps g hg] at h
      simp only [Option.some.injEq, Prod.mk.injEq] at h
      omega

theorem walkAux_len_lt (R : Nat → Nat) (n : Nat) :
    ∀ fuel st (out token : Str) k steps o oc st' k' sp,
      out.length < n →
      walkAux R n st out token k steps fuel = some (o, oc, st', k', sp) →
      o.length < n := by
  intro fuel
  induction fuel with
  | zero =>
    intro st out token k steps o oc st' k' sp hlt h
    simp only [walkAux, Option.some.injEq, Prod.mk.injEq] at h
    obtain ⟨rfl, -⟩ := h
    exact hlt
  | succ g ih =>
    intro st out token k steps o oc st' k' sp hlt h
    by_cases hg : out.length + 2 < n
    · cases htid : token_id st token with
      | none =>
        rw [walkAux_succ_none R n st out token k steps g hg htid] at h
        exact Option.noConfusion h
      | some pr =>
        obtain ⟨cid, st1⟩ := pr
        rw [walkAux_succ_some R n st st1 out token k steps g cid hg htid] at h
        by_cases hdead : (st1.succs.getD cid []).length = 0
        · rw [if_pos hdead] at h
          simp only [Option.some.injEq, Prod.mk.injEq] at h
          obtain ⟨rfl, -⟩ := h
          exact hlt
        · rw [if_neg hdead] at h
          by_cases htrunc : out.length + 1 + (walkNext R st1 cid k).length + 1 ≥ n
          · rw [if_pos htrunc] at h
            simp only [Option.some.injEq, Prod.mk.injEq] at h
            obtain ⟨rfl, -⟩ := h
            exact hlt
          · by_cases hterm : token_ends_a_sentence (walkNext R st1 cid k) = true
            · rw [if_neg htrunc, if_pos hterm] at h
              simp only [Option.some.injEq, Prod.mk.injEq] at h
              obtain ⟨rfl, -⟩ := h
              simp only [List.length_append, List.length_cons]
              omega
            · rw [if_neg htrunc, if_neg hterm] at h
              have hlen : (out ++ 32 :: walkNext R st1 cid k).length < n := by
                simp only [List.length_append, List.length_cons]
                omega
              exact ih st1 _ _ (k + 1) (steps + 1) o oc st' k' sp hlen h
    · rw [walkAux_guard_fail R n st out token k steps g hg] at h
      simp only [Option.some.injEq, Prod.mk.injEq] at h
      obtain ⟨rfl, -⟩ := h
      exact hlt

theorem getD_mem {α : Type} (l : List α) (i : Nat) (d : α) (h : i < l.length) :
    l.getD i d ∈ l := by
  have hg : l.getD i d = l[i] := by
    simp [List.getD_eq_getElem?_getD, List.getElem?_eq_getElem h]
  rw [hg]
  exact List.getElem_mem h

theorem walkAux_pure (R : Nat → Nat) (n : Nat) (st : Model)
    (hsuccs : ∀ l, l ∈ st.succs → ∀ s, s ∈ l → ∃ j, hash_find st s = Int.ofNat j) :
    ∀ fuel (out token : Str) k steps,
      (∃ j, hash_find st token = Int.ofNat j) →
      ∃ o oc k' sp, walkAux R n st out token k steps fuel = some (o, oc, st, k', sp) := by
  intro fuel
  induction fuel with
  | zero => intro out token k steps _; exact ⟨out, Outcome.truncated, k, steps, rfl⟩
  | succ g ih =>
    intro out token k steps htok
    by_cases hg : out.length + 2 < n
    · obtain ⟨j, hj⟩ := htok
      have htid : token_id st token = some (j, st) := token_id_of_found st token j hj
      rw [walkAux_succ_some R n st st out token k steps g j hg htid]
      by_cases hdead : (st.succs.getD j []).length = 0
      · rw [if_pos hdead]
        exact ⟨out, Outcome.deadEnd, k, steps, rfl⟩
      · rw [if_neg hdead]
        by_cases htrunc : out.length + 1 + (walkNext R st j k).length + 1 ≥ n
        · rw [if_pos htrunc]
          exact ⟨out, Outcome.truncated, k + 1, steps, rfl⟩
        · rw [if_neg htrunc]
          by_cases hterm : token_ends_a_sentence (walkNext R st j k) = true
          · rw [if_pos hterm]
            exact ⟨out ++ 32 :: walkNext R st j k, Outcome.terminal, k + 1, steps + 1, rfl⟩
          · rw [if_neg hterm]
            apply ih
            have hjlt : j < st.succs.length := by
              by_contra hcon
              have : st.succs.getD j [] = [] := by
                simp [List.getD_eq_getElem?_getD, List.getElem?_eq_none (Nat.le_of_not_lt hcon)]
              rw [this] at hdead
              exact hdead rfl
            have hlmem : st.succs.getD j [] ∈ st.succs := getD_mem st.succs j [] hjlt
            have hidx : R k % (st.succs.getD j []).length < (st.succs.getD j []).length :=
              Nat.mod_lt _ (Nat.pos_of_ne_zero hdead)
            have hnmem : walkNext R st j k ∈ st.succs.getD j [] := by
              rw [walkNext]
              exact getD_mem (st.succs.getD j []) (R k % (st.succs.getD j []).length) [] hidx
            exact hsuccs (st.succs.getD j []) hlmem (walkNext R st j k) hnmem
    · exact ⟨out, Outcome.truncated, k, steps, by rw [walkAux_guard_fail R n st out token k steps g hg]⟩

theorem last_char_append_cons (l next : Str) :
    last_char (l ++ 32 :: next) = if next = [] then 32 else last_char next := by
  cases next with
  | nil =>
    simp only [last_char, if_pos rfl]
    exact List.getLastD_concat _ _ _
  | cons a r =>
    simp only [last_char, if_neg (by simp : ¬ (a :: r : Str) = [])]
    rw [List.getLastD_eq_getLast?, List.getLastD_eq_getLast?, List.getLast?_append,
      List.getLast?_cons_cons]
    have hs : ((a :: r : Str).getLast?).isSome := by
      rw [List.getLast?_isSome]
      simp
    obtain ⟨x, hx⟩ := Option.isSome_iff_exists.mp hs
    rw [hx]
    rfl

theorem tokEnds_append (l next : Str) :
    token_ends_a_sentence (l ++ 32 :: next) = token_ends_a_sentence next := by
  by_cases hnx : next = []
  · subst hnx
    simp [token_ends_a_sentence, last_char_append_cons, last_char]
  · simp [token_ends_a_sentence, last_char_append_cons, hnx]

theorem walkAux_outcome (R : Nat → Nat) (n : Nat) :
    ∀ fuel st (out token : Str) k steps o oc st' k' sp,
      token_ends_a_sentence token = false →
      token_ends_a_sentence out = false →
      walkAux R n st out token k steps fuel = some (o, oc, st', k', sp) →
      ((oc = Outcome.terminal) ↔ token_ends_a_sentence o = true) := by
  intro fuel
  induction fuel with
  | zero =>
    intro st out token k steps o oc st' k' sp htok hout h
    simp only [walkAux, Option.some.injEq, Prod.mk.injEq] at h
    obtain ⟨rfl, rfl, -⟩ := h
    simp [hout]
  | succ g ih =>
    intro st out token k steps o oc st' k' sp htok hout h
    by_cases hg : out.length + 2 < n
    · cases htid : token_id st token with
      | none =>
        rw [walkAux_succ_none R n st out token k steps g hg htid] at h
        exact Option.noConfusion h
      | some pr =>
        obtain ⟨cid, st1⟩ := pr
        rw [walkAux_succ_some R n st st1 out token k steps g cid hg htid] at h
        by_cases hdead : (st1.succs.getD cid []).length = 0
        · rw [if_pos hdead] at h
          simp only [Option.some.injEq, Prod.mk.injEq] at h
          obtain ⟨rfl, rfl, -⟩ := h
          simp [hout]
        · rw [if_neg hdead] at h
          by_cases htrunc : out.length + 1 + (walkNext R st1 cid k).length + 1 ≥ n
          · rw [if_pos htrunc] at h
            simp only [Option.some.injEq, Prod.mk.injEq] at h
            obtain ⟨rfl, rfl, -⟩ := h
            simp [hout]
          · rw [if_neg htrunc] at h
            by_cases hterm : token_ends_a_sentence (walkNext R st1 cid k) = true
            · rw [if_pos hterm] at h
              simp only [Option.some.injEq, Prod.mk.injEq] at h
              obtain ⟨rfl, rfl, -⟩ := h
              simp [tokEnds_append, hterm]
            · rw [if_neg hterm] at h
              have hterm' : token_ends_a_sentence (walkNext R st1 cid k) = false := by
                revert hterm
                cases token_ends_a_sentence (walkNext R st1 cid k) <;> simp
              have hout' : token_ends_a_sentence (out ++ 32 :: walkNext R st1 cid k) = false := by
                rw [tokEnds_append]
                exact hterm'
              exact ih st1 _ _ (k + 1) (steps + 1) o oc st' k' sp hterm' hout' h
    · rw [walkAux_guard_fail R n st out token k steps g hg] at h
      simp only [Option.some.injEq, Prod.mk.injEq] at h
      obtain ⟨rfl, rfl, -⟩ := h
      simp [hout]

/-! Section: `generate_sentence` unfolding lemmas -/

theorem generate_full_zero (st : Model) (R : Nat → Nat) (k : Nat) :
    generate_full st R k 0 =
      some { out := none, outcome := Outcome.truncated, st := st, rk := k, steps := 0 } := rfl

theorem generate_full_pos (st : Model) (R : Nat → Nat) (k n : Nat) (hn : n ≠ 0) :
    generate_full st R k n =
      (if token_ends_a_sentence (start_token st R k) then
        some { out := some ((start_token st R k).take (n - 1)), outcome := Outcome.terminal,
               st := st, rk := (random_token_id_that_starts_a_sentence st R k).2, steps := 0 }
      else
        (walkAux R n st ((start_token st R k).take (n - 1)) (start_token st R k)
          (random_token_id_that_starts_a_sentence st R k).2 0 n).map
          (fun w => { out := some w.1, outcome := w.2.1, st := w.2.2.1,
                      rk := w.2.2.2.1, steps := w.2.2.2.2 })) := by
  rw [generate_full, if_neg hn]
  rfl

/-! Section: Start-selection lemmas -/

theorem start_rand_aux_zero_vocab (st : Model) (R : Nat → Nat) (hz : st.tokens.length = 0) :
    ∀ att k, start_rand_aux st R k att = (none, k) := by
  intro att
  cases att with
  | zero => intro k; rfl
  | succ a => intro k; rw [start_rand_aux, if_pos hz]

theorem start_rand_aux_eq_find (st : Model) (R : Nat → Nat) (hne : ¬ st.tokens.length = 0) :
    ∀ att k, start_rand_aux st R k att =
      (match (List.range att).find?
          (fun a => starts_uppercase (st.tokens.getD (R (k + a) % st.tokens.length) [])) with
       | some a => (some (R (k + a) % st.tokens.length), k + a + 1)
       | none => (none, k + att)) := by
  intro att
  induction att with
  | zero => intro k; rfl
  | succ a ih =>
    intro k
    rw [start_rand_aux, if_neg hne]
    rw [List.range_succ_eq_map]
    by_cases hs : starts_uppercase (st.tokens.getD (R k % st.tokens.length) []) = true
    · rw [if_pos hs, List.find?_cons_of_pos _ (by simpa using hs)]
      rfl
    · rw [if_neg hs, List.find?_cons_of_neg _ (by simpa using hs), ih (k + 1)]
      rw [List.find?_map]
      have hpred : ((fun a => starts_uppercase
            (st.tokens.getD (R (k + a) % st.tokens.length) [])) ∘ Nat.succ) =
          (fun x => starts_uppercase (st.tokens.getD (R (k + 1 + x) % st.tokens.length) [])) := by
        funext x
        simp only [Function.comp]
        have hx : k + Nat.succ x = k + 1 + x := by omega
        rw [hx]
      rw [hpred]
      cases hfd : (List.range a).find?
          (fun x => starts_uppercase (st.tokens.getD (R (k + 1 + x) % st.tokens.length) [])) with
      | none =>
        simp only [Option.map_none']
        have : k + 1 + a = k + (a + 1) := by omega
        rw [this]
      | some x =>
        simp only [Option.map_some']
        have h1 : k + 1 + x = k + Nat.succ x := by omega
        rw [h1]

theorem start_rand_aux_some (st : Model) (R : Nat → Nat) :
    ∀ att k i k', start_rand_aux st R k att = (some i, k') →
      i < st.tokens.length ∧ starts_uppercase (st.tokens.getD i []) = true := by
  intro att
  induction att with
  | zero =>
    intro k i k' h
    rw [start_rand_aux] at h
    simp at h
  | succ a ih =>
    intro k i k' h
    rw [start_rand_aux] at h
    by_cases hz : st.tokens.length = 0
    · rw [if_pos hz] at h
      simp at h
    · rw [if_neg hz] at h
      by_cases hs : starts_uppercase (st.tokens.getD (R k % st.tokens.length) []) = true
      · rw [if_pos hs] at h
        simp only [Prod.mk.injEq, Option.some.injEq] at h
        obtain ⟨rfl, -⟩ := h
        exact ⟨Nat.mod_lt _ (Nat.pos_of_ne_zero hz), hs⟩
      · rw [if_neg hs] at h
        exact ih (k + 1) i k' h

theorem start_id_lt (st : Model) (R : Nat → Nat) (k : Nat) (hne : st.tokens.length ≠ 0) :
    (random_token_id_that_starts_a_sentence st R k).1 < st.tokens.length := by
  rw [random_token_id_that_starts_a_sentence]
  cases haux : start_rand_aux st R k 10000 with
  | mk oi k' =>
    cases oi with
    | some i =>
      have := (start_rand_aux_some st R 10000 k i k' haux).1
      simpa using this
    | none =>
      cases hfd : (List.range st.tokens.length).find?
          (fun i => starts_uppercase (st.tokens.getD i [])) with
      | some i =>
        have hmem := List.mem_of_find?_eq_some hfd
        have : i < st.tokens.length := List.mem_range.mp hmem
        simpa using this
      | none =>
        simpa using Nat.pos_of_ne_zero hne

/-! Section: Further helper lemmas -/

theorem succsInPairs_eq_nil (ps : List (Str × Str)) (a : Str)
    (h : ∀ e, e ∈ ps → e.1 ≠ a) : succsInPairs ps a = [] := by
  rw [succsInPairs, List.filterMap_eq_nil_iff]
  intro e he
  rw [if_neg (h e he)]

theorem count_succsInPairs (ps : List (Str × Str)) (a b : Str) :
    (succsInPairs ps a).count b = ps.count (a, b) := by
  induction ps with
  | nil => rfl
  | cons e ps ih =>
    obtain ⟨x, y⟩ := e
    rw [succsInPairs_cons, List.count_cons, List.count_append, ih]
    by_cases hx : x = a
    · subst hx
      rw [if_pos rfl]
      by_cases hy : y = b
      · subst hy
        simp [List.count_cons]
        omega
      · simp [List.count_cons, hy, Prod.ext_iff]
    · rw [if_neg hx]
      simp [Prod.ext_iff, hx]

theorem token_id_tokens_cases (st : Model) (s : Str) (id : Nat) (st' : Model)
    (h : token_id st s = some (id, st')) :
    st' = st ∨ st'.tokens = st.tokens ++ [s] := by
  cases hf : hash_find st s with
  | ofNat j =>
    rw [token_id_of_found st s j hf] at h
    simp only [Option.some.injEq, Prod.mk.injEq] at h
    exact Or.inl h.2.symm
  | negSucc m =>
    simp only [token_id, hf] at h
    cases hins : insertAux st.hash_index st.tokens.length (hash_str s % HASH_SIZE) 0 HASH_SIZE with
    | none => simp [hins] at h
    | some hi' =>
      simp only [hins, Option.some.injEq, Prod.mk.injEq] at h
      exact Or.inr (by rw [← h.2])

/-! Section: Claim theorems -/

/-- C8: start selection makes at most 10000 random draws from the full id
space, returns the first draw whose spelling starts with an uppercase
letter, falls back (on exhausted attempts or empty vocabulary) to a
deterministic ascending scan, and defaults to id 0 without crashing: the
code's `random_token_id_that_starts_a_sentence` coincides with the
strategy described by the spec (`spec_start_selection`). -/
theorem start_selection_refines_spec :
    ∀ (st : Model) (R : Nat → Nat) (k : Nat),
      random_token_id_that_starts_a_sentence st R k = spec_start_selection st R k := by
  intro st R k
  by_cases hz : st.tokens.length = 0
  · rw [random_token_id_that_starts_a_sentence, spec_start_selection, if_pos hz,
        start_rand_aux_zero_vocab st R hz 10000 k]
    rw [hz]
    rfl
  · rw [random_token_id_that_starts_a_sentence, spec_start_selection, if_neg hz,
        start_rand_aux_eq_find st R hz 10000 k]
    cases hfd : (List.range 10000).find?
        (fun a => starts_uppercase (st.tokens.getD (R (k + a) % st.tokens.length) [])) with
    | some a => rfl
    | none => rfl

/-- C1: interning is idempotent: a second `token_id` call with the same
spelling returns the same id and leaves the state unchanged, and the pure
lookup `hash_find` after interning returns that id. -/
theorem intern_idempotent (st : Model) (s : Str) (id : Nat) (st' : Model) (hwf : WF st)
    (h : token_id st s = some (id, st')) :
    token_id st' s = some (id, st') ∧ hash_find st' s = Int.ofNat id := by
  rcases hash_find_cases st s hwf with hneg | ⟨j, hj, hjlt, hjs⟩
  · obtain ⟨hid, -, -, -, -, hfind', -⟩ := token_id_new st s id st' hwf hneg h
    subst hid
    exact ⟨token_id_of_found st' s st.tokens.length hfind', hfind'⟩
  · have hfnd := token_id_of_found st s j hj
    rw [hfnd] at h
    simp only [Option.some.injEq, Prod.mk.injEq] at h
    obtain ⟨rfl, rfl⟩ := h
    exact ⟨hfnd, hj⟩

theorem intern_idempotent_witness :
    WF initModel ∧ token_id initModel aStr = some (0, demoSt1) ∧
    token_id demoSt1 aStr = some (0, demoSt1) ∧ hash_find demoSt1 aStr = Int.ofNat 0 := by
  refine ⟨wf_init, rfl, ?_, ?_⟩
  · exact (intern_idempotent initModel aStr 0 demoSt1 wf_init rfl).1
  · exact (intern_idempotent initModel aStr 0 demoSt1 wf_init rfl).2

/-- C2: interning is injective and dense: interning two distinct spellings
yields distinct ids, the id→spelling mapping is stable across later
interning, and a fresh spelling receives the next zero-based consecutive
id (appended in first-occurrence order). -/
theorem intern_injective_dense (st st1 st2 : Model) (s1 s2 : Str) (id1 id2 : Nat)
    (hInv : BuildInv st) (h1 : token_id st s1 = some (id1, st1))
    (h2 : token_id st1 s2 = some (id2, st2)) (hne : s1 ≠ s2) :
    id1 ≠ id2 ∧ st2.tokens[id1]? = some s1 ∧ st2.tokens[id2]? = some s2 ∧
      (hash_find st s1 = -1 → id1 = st.tokens.length ∧ st1.tokens = st.tokens ++ [s1]) := by
  obtain ⟨hInv1, hf1, hsome1, hlen1, hcase1⟩ := token_id_buildInv st s1 id1 st1 hInv h1
  obtain ⟨hInv2, hf2, hsome2, hlen2, hcase2⟩ := token_id_buildInv st1 s2 id2 st2 hInv1 h2
  have hid1lt : id1 < st1.tokens.length := (List.getElem?_eq_some_iff.mp hsome1).1
  have hsome1' : st2.tokens[id1]? = some s1 := by
    rcases hcase2 with heq | ⟨-, -, htk, -, -⟩
    · rw [heq]; exact hsome1
    · rw [htk, List.getElem?_append_left hid1lt]; exact hsome1
  refine ⟨?_, hsome1', hsome2, ?_⟩
  · intro hid
    rw [hid, hsome2] at hsome1'
    exact hne (Option.some.inj hsome1').symm
  · intro hneg
    rcases hcase1 with heq | ⟨-, hidl, htk, -, -⟩
    · exfalso
      rw [heq] at hsome1
      have hretr := hInv.retr id1 s1 hsome1
      rw [hneg] at hretr
      exact ofNat_ne_negOne id1 hretr.symm
    · exact ⟨hidl, htk⟩

theorem intern_injective_dense_witness :
    (0 : Nat) ≠ 1 ∧ demoSt2.tokens[0]? = some aStr ∧ demoSt2.tokens[1]? = some bStr ∧
    (0 : Nat) = initModel.tokens.length ∧ demoSt1.tokens = initModel.tokens ++ [aStr] := by
  have h := intern_injective_dense initModel demoSt1 demoSt2 aStr bStr 0 1 buildInv_init
    rfl rfl (by decide)
  exact ⟨h.1, h.2.1, h.2.2.1, (h.2.2.2 (by decide)).1, (h.2.2.2 (by decide)).2⟩

/-- C3: successor lists are an exact, order-preserving, non-deduplicated
record of observed consecutive pairs: after the build pass, the successor
list of any interned spelling equals the ordered multiset of its observed
successors (so repeated followers appear with their multiplicity, in
insertion order), a spelling that never occurs as the first element of a
pair has an empty list, and per-successor counts equal pair counts. -/
theorem succ_lists_exact (delims text : Str) (st : Model)
    (h : tokenize_and_fill_succs delims text initModel = some st)
    (a : Nat) (s0 : Str) (hs0 : st.tokens[a]? = some s0) :
    st.succs[a]? = some (succsIn (strtok_split delims text) s0) ∧
    ((∀ e, e ∈ consecutivePairs (strtok_split delims text) → e.1 ≠ s0) →
      st.succs[a]? = some []) ∧
    (∀ b, (succsIn (strtok_split delims text) s0).count b =
      (consecutivePairs (strtok_split delims text)).count (s0, b)) := by
  obtain ⟨-, -, hf⟩ := tok_loop_fidelity (strtok_split delims text) initModel none st
    buildInv_init (by intro p hp; exact Option.noConfusion hp) h
  have h1 := hf a s0 hs0
  have h0 : initModel.succs.getD a [] = [] := by cases a <;> rfl
  rw [h0, List.nil_append] at h1
  have hpf : pairsFrom none (strtok_split delims text) =
      consecutivePairs (strtok_split delims text) := rfl
  rw [hpf] at h1
  refine ⟨h1, ?_, ?_⟩
  · intro hnone
    rw [h1, succsInPairs_eq_nil _ _ hnone]
  · intro b
    exact count_succsInPairs _ _ _

theorem succ_lists_exact_witness :
    tokenize_and_fill_succs delimSp corpus3 initModel = some st3 ∧
    st3.tokens[0]? = some (strBytes "x") ∧
    st3.succs[0]? = some (succsIn (strtok_split delimSp corpus3) (strBytes "x")) ∧
    succsIn (strtok_split delimSp corpus3) (strBytes "x") =
      [strBytes "y", strBytes "y", strBytes "z"] ∧
    (succsIn (strtok_split delimSp corpus3) (strBytes "x")).count (strBytes "y") = 2 ∧
    (succsIn (strtok_split delimSp corpus3) (strBytes "x")).count (strBytes "z") = 1 := by
  refine ⟨rfl, by decide, ?_, by decide, by decide, by decide⟩
  exact (succ_lists_exact delimSp corpus3 st3 rfl 0 (strBytes "x") (by decide)).1

/-- C4 counterexample: `append_to_succs("a", "b")` on the empty model
interns only `"a"`; the successor spelling `"b"` is stored by reference
but not interned, so the claim that `append_to_succs` interns both of its
argument spellings is false. -/
theorem append_does_not_intern_successor :
    append_to_succs initModel aStr bStr = some stAB ∧
    stAB.tokens = [aStr] ∧ hash_find stAB bStr = -1 := by
  exact ⟨rfl, by decide, by decide⟩

/-- C4 (amended): `append_to_succs` interns the predecessor spelling only,
stores the successor's reference without interning it, and appends it to
the predecessor's successor list, growing the backing capacity from 0 to
`INIT_SUCC_CAP = 4` and doubling it when full, keeping size within
capacity. -/
theorem append_to_succs_spec (st st1 st2 : Model) (prev curr : Str) (pid : Nat)
    (h : token_id st prev = some (pid, st1))
    (happ : append_to_succs st prev curr = some st2)
    (hlt : pid < st1.succs.length) (hltc : pid < st1.succs_caps.length)
    (hcap : (st1.succs.getD pid []).length ≤ st1.succs_caps.getD pid 0)
    (hcap0 : st1.succs_caps.getD pid 0 = 0 → st1.succs.getD pid [] = []) :
    st2.tokens = st1.tokens ∧
    st2.succs.getD pid [] = st1.succs.getD pid [] ++ [curr] ∧
    st2.succs_caps.getD pid 0 =
      (if st1.succs_caps.getD pid 0 = 0 then INIT_SUCC_CAP
       else if st1.succs_caps.getD pid 0 ≤ (st1.succs.getD pid []).length then
         st1.succs_caps.getD pid 0 * 2
       else st1.succs_caps.getD pid 0) ∧
    (st2.succs.getD pid []).length ≤ st2.succs_caps.getD pid 0 ∧
    (st1 = st ∨ st1.tokens = st.tokens ++ [prev]) := by
  simp only [append_to_succs, h] at happ
  obtain rfl : st2 = _ := (Option.some.inj happ).symm
  have h2 : (st1.succs.set pid (st1.succs.getD pid [] ++ [curr])).getD pid [] =
      st1.succs.getD pid [] ++ [curr] :=
    getD_set_self st1.succs pid _ [] hlt
  have h3 : (st1.succs_caps.set pid
        (if st1.succs_caps.getD pid 0 = 0 then INIT_SUCC_CAP
         else if st1.succs_caps.getD pid 0 ≤ (st1.succs.getD pid []).length then
           st1.succs_caps.getD pid 0 * 2
         else st1.succs_caps.getD pid 0)).getD pid 0 =
      (if st1.succs_caps.getD pid 0 = 0 then INIT_SUCC_CAP
       else if st1.succs_caps.getD pid 0 ≤ (st1.succs.getD pid []).length then
         st1.succs_caps.getD pid 0 * 2
       else st1.succs_caps.getD pid 0) :=
    getD_set_self st1.succs_caps pid _ 0 hltc
  refine ⟨rfl, h2, h3, ?_, token_id_tokens_cases st prev pid st1 h⟩
  show ((st1.succs.set pid (st1.succs.getD pid [] ++ [curr])).getD pid []).length ≤
    (st1.succs_caps.set pid _).getD pid 0
  rw [h2, h3]
  simp only [List.length_append, List.length_singleton]
  by_cases hc0 : st1.succs_caps.getD pid 0 = 0
  · rw [if_pos hc0, hcap0 hc0]
    simp [INIT_SUCC_CAP]
  · rw [if_neg hc0]
    by_cases hfull : st1.succs_caps.getD pid 0 ≤ (st1.succs.getD pid []).length
    · rw [if_pos hfull]
      omega
    · rw [if_neg hfull]
      omega

theorem append_to_succs_spec_witness :
    token_id initModel aStr = some (0, demoSt1) ∧
    append_to_succs initModel aStr bStr = some stAB ∧
    stAB.tokens = demoSt1.tokens ∧
    stAB.succs.getD 0 [] = demoSt1.succs.getD 0 [] ++ [bStr] ∧
    (stAB.succs.getD 0 []).length ≤ stAB.succs_caps.getD 0 0 := by
  have h := append_to_succs_spec initModel demoSt1 stAB aStr bStr 0 rfl rfl
    (by decide) (by decide) (by decide) (fun _ => by decide)
  exact ⟨rfl, rfl, h.1, h.2.1, h.2.2.2.1⟩

/-- C9: tokenizing `"Alice saw Bob. Bob ran!"` on space/LF/CR yields
exactly the five ordered tokens, exactly the four consecutive edges in
order, and every yielded token (including the first, which never occurs
as a successor) is interned with its own id; the total number of recorded
successor entries is 4 and the first token's list may be non-empty while
the last token's list is empty. -/
theorem tokenizer_scenario :
    strtok_split delimSp corpus9 =
      [strBytes "Alice", strBytes "saw", strBytes "Bob.", strBytes "Bob", strBytes "ran!"] ∧
    consecutivePairs (strtok_split delimSp corpus9) =
      [(strBytes "Alice", strBytes "saw"), (strBytes "saw", strBytes "Bob."),
       (strBytes "Bob.", strBytes "Bob"), (strBytes "Bob", strBytes "ran!")] ∧
    tokenize_and_fill_succs delimSp corpus9 initModel = some st9 ∧
    st9.tokens =
      [strBytes "Alice", strBytes "saw", strBytes "Bob.", strBytes "Bob", strBytes "ran!"] ∧
    st9.succs =
      [[strBytes "saw"], [strBytes "Bob."], [strBytes "Bob"], [strBytes "ran!"], []] ∧
    (st9.succs.foldr (fun l acc => l.length + acc) 0) = 4 := by
  exact ⟨by decide, by decide, rfl, by decide, by decide, by decide⟩

/-- C5 counterexample: on the empty vocabulary with a buffer of size 3,
`generate_sentence` interns the empty string (the walk calls `token_id`
on the placeholder token `""`), so the interning table is NOT left
unchanged for every state of the model. -/
theorem generate_mutates_on_empty_vocab :
    generate_full initModel R0 0 3 = some rEmpty ∧
    initModel.tokens = [] ∧ rEmpty.st.tokens = [[]] ∧
    rEmpty.st.tokens ≠ initModel.tokens := by
  exact ⟨rfl, rfl, by decide, by decide⟩

/-- C5 (amended): `generate_sentence` leaves the interning table and every
successor list unchanged whenever the vocabulary is non-empty and every
spelling stored in `tokens` or in a successor list is present in the hash
index (as holds for every state built by the tokenizer); the final state
it leaves behind is exactly the input state. -/
theorem generate_preserves_model (st : Model) (R : Nat → Nat) (k n : Nat)
    (hne : st.tokens ≠ [])
    (htoks : ∀ s, s ∈ st.tokens → ∃ j, hash_find st s = Int.ofNat j)
    (hsuccs : ∀ l, l ∈ st.succs → ∀ s, s ∈ l → ∃ j, hash_find st s = Int.ofNat j) :
    (generate_full st R k n).map GenResult.st = some st := by
  by_cases hn : n = 0
  · subst hn
    rw [generate_full_zero]
    rfl
  · rw [generate_full_pos st R k n hn]
    have hlen0 : st.tokens.length ≠ 0 := fun hh => hne (List.length_eq_zero.mp hh)
    have hstart : start_token st R k ∈ st.tokens := by
      rw [start_token, if_neg hlen0]
      exact getD_mem st.tokens _ [] (start_id_lt st R k hlen0)
    by_cases hterm : token_ends_a_sentence (start_token st R k) = true
    · rw [if_pos hterm]
      rfl
    · rw [if_neg hterm]
      obtain ⟨o, oc, k', sp, hw⟩ := walkAux_pure R n st hsuccs n
        ((start_token st R k).take (n - 1)) (start_token st R k)
        (random_token_id_that_starts_a_sentence st R k).2 0 (htoks _ hstart)
      rw [hw]
      rfl

theorem generate_preserves_model_witness :
    stA.tokens ≠ [] ∧ (generate_full stA R0 0 6).map GenResult.st = some stA := by
  refine ⟨by decide, ?_⟩
  refine generate_preserves_model stA R0 0 6 (by decide) ?_ ?_
  · intro s hs
    have htok : stA.tokens = [strBytes "A", strBytes "b"] := by decide
    rw [htok] at hs
    rcases List.mem_cons.mp hs with rfl | hs1
    · exact ⟨0, by decide⟩
    · rcases List.mem_cons.mp hs1 with rfl | hs2
      · exact ⟨1, by decide⟩
      · exact absurd hs2 (List.not_mem_nil s)
  · intro l hl s hs
    have hsc : stA.succs = [[strBytes "b"], []] := by decide
    rw [hsc] at hl
    rcases List.mem_cons.mp hl with rfl | hl1
    · rcases List.mem_cons.mp hs with rfl | hs1
      · exact ⟨1, by decide⟩
      · exact absurd hs1 (List.not_mem_nil s)
    · rcases List.mem_cons.mp hl1 with rfl | hl2
      · exact absurd hs (List.not_mem_nil s)
      · exact absurd hl2 (List.not_mem_nil l)

/-- C6: `generate_sentence` never overflows the caller's buffer: with
`out_size = 0` nothing is written at all; otherwise the buffer holds a
NUL-terminated string of length strictly below `out_size` (so at most
`out_size` bytes, terminator included, are ever written), the walk having
stopped before any append that would not fit. -/
theorem generate_respects_out_size (st : Model) (R : Nat → Nat) (k n : Nat) (r : GenResult)
    (h : generate_full st R k n = some r) :
    (n = 0 → r.out = none) ∧ (∀ s, r.out = some s → s.length + 1 ≤ n) ∧
    (1 ≤ n → r.out.isSome = true) := by
  by_cases hn : n = 0
  · subst hn
    rw [generate_full_zero] at h
    obtain rfl := (Option.some.inj h).symm
    refine ⟨fun _ => rfl, ?_, ?_⟩
    · intro s hs
      exact Option.noConfusion hs
    · intro h1
      exact absurd h1 (by omega)
  · rw [generate_full_pos st R k n hn] at h
    by_cases hterm : token_ends_a_sentence (start_token st R k) = true
    · rw [if_pos hterm] at h
      obtain rfl := (Option.some.inj h).symm
      refine ⟨fun h0 => absurd h0 hn, ?_, fun _ => rfl⟩
      intro s hs
      have hse : s = (start_token st R k).take (n - 1) := (Option.some.inj hs).symm
      subst hse
      have hle := List.length_take_le (n - 1) (start_token st R k)
      omega
    · rw [if_neg hterm] at h
      obtain ⟨w, hww, hrw⟩ := Option.map_eq_some'.mp h
      obtain ⟨o, oc, st', k', sp⟩ := w
      have hlen0 : ((start_token st R k).take (n - 1)).length < n := by
        have hle := List.length_take_le (n - 1) (start_token st R k)
        omega
      have holen := walkAux_len_lt R n n st _ _ _ 0 o oc st' k' sp hlen0 hww
      subst hrw
      refine ⟨fun h0 => absurd h0 hn, ?_, fun _ => rfl⟩
      intro s hs
      have hos : o = s := Option.some.inj hs
      subst hos
      omega

theorem generate_respects_out_size_witness :
    generate_full stA R0 0 6 = some rA ∧ ((6 : Nat) = 0 → rA.out = none) ∧
    rA.out = some [65, 32, 98] ∧ ([65, 32, 98] : Str).length + 1 ≤ 6 ∧
    rA.out.isSome = true := by
  have h := generate_respects_out_size stA R0 0 6 rA rfl
  exact ⟨rfl, h.1, by decide, h.2.1 [65, 32, 98] (by decide), h.2.2 (by omega)⟩

/-- C7: a single sampler walk always terminates on every graph (cycles
included) within the size bound: running the walk with any fuel at least
`out_size` gives the same result as fuel `out_size` (so the recursion has
stabilized — no cycle detection needed), the number of appended tokens in
a full `generate_sentence` call is at most `out_size` (= `out_size`
divided by the shortest possible token length), and every token the
tokenizer can produce has length at least 1. -/
theorem walk_terminates_bounded (st : Model) (R : Nat → Nat) (k n f : Nat)
    (out token : Str) (k0 steps0 : Nat) (hf : n ≤ f) :
    walkAux R n st out token k0 steps0 f = walkAux R n st out token k0 steps0 n ∧
    (∀ r, generate_full st R k n = some r → r.steps ≤ n) ∧
    (∀ d t x, x ∈ strtok_split d t → 1 ≤ x.length) := by
  refine ⟨walkAux_stable R n f n st out token k0 steps0 (by omega) (by omega), ?_, ?_⟩
  · intro r hr
    by_cases hn : n = 0
    · subst hn
      rw [generate_full_zero] at hr
      obtain rfl := (Option.some.inj hr).symm
      exact Nat.le_refl 0
    · rw [generate_full_pos st R k n hn] at hr
      by_cases hterm : token_ends_a_sentence (start_token st R k) = true
      · rw [if_pos hterm] at hr
        obtain rfl := (Option.some.inj hr).symm
        exact Nat.zero_le n
      · rw [if_neg hterm] at hr
        obtain ⟨w, hww, hrw⟩ := Option.map_eq_some'.mp hr
        obtain ⟨o, oc, st', k', sp⟩ := w
        have hsp := walkAux_steps_le R n n st _ _ _ 0 o oc st' k' sp hww
        subst hrw
        show sp ≤ n
        omega
  · intro d t x hx
    simp only [strtok_split] at hx
    have hxne := List.of_mem_filter hx
    have hxne' : x ≠ [] := by simpa using hxne
    have hpos : 0 < x.length := List.length_pos.mpr hxne'
    omega

theorem walk_terminates_bounded_witness :
    walkAux R0 6 stA [] [] 0 0 7 = walkAux R0 6 stA [] [] 0 0 6 ∧
    rA.steps ≤ 6 ∧ 1 ≤ (strBytes "Alice").length := by
  have h := walk_terminates_bounded stA R0 0 6 7 [] [] 0 0 (by omega)
  exact ⟨h.1, h.2.1 rA rfl, h.2.2 delimSp corpus9 (strBytes "Alice") (by decide)⟩

/-- C10 counterexample: the core does not report which walk outcome
occurred: `generate_sentence` returns only the buffer (plus the untouched
globals), and two runs — one ending in a dead end, one in a size
truncation, with the same buffer size — produce identical buffers, so no
consumer of the returned value can distinguish the two non-terminal
outcomes. -/
theorem outcome_not_reported :
    generate_full stA R0 0 6 = some rA ∧ generate_full stB R0 0 6 = some rB ∧
    generate_sentence stA R0 0 6 = some (rA.out, rA.st, rA.rk) ∧
    generate_sentence stB R0 0 6 = some (rB.out, rB.st, rB.rk) ∧
    rA.out = rB.out ∧ rA.outcome = Outcome.deadEnd ∧ rB.outcome = Outcome.truncated := by
  exact ⟨rfl, rfl, rfl, rfl, by decide, by decide, by decide⟩

/-- C10 (amended): the walk outcome is not returned; the only signal the
driver can use is the output string itself, and — provided the start token
fits the buffer — the final character criterion used by `main`
distinguishes exactly terminal from non-terminal: the walk outcome is
terminal if and only if the produced string's last character is one of
`. ? !`; dead end and truncation remain indistinguishable from the
returned value. -/
theorem outcome_matches_last_char (st : Model) (R : Nat → Nat) (k n : Nat) (r : GenResult)
    (s : Str) (hn : 1 ≤ n) (hfit : (start_token st R k).length + 1 ≤ n)
    (h : generate_full st R k n = some r) (hs : r.out = some s) :
    (r.outcome = Outcome.terminal ↔ token_ends_a_sentence s = true) := by
  have hn0 : n ≠ 0 := by omega
  rw [generate_full_pos st R k n hn0] at h
  have htake : (start_token st R k).take (n - 1) = start_token st R k :=
    List.take_of_length_le (by omega)
  by_cases hterm : token_ends_a_sentence (start_token st R k) = true
  · rw [if_pos hterm] at h
    obtain rfl := (Option.some.inj h).symm
    have hso : s = (start_token st R k).take (n - 1) := (Option.some.inj hs).symm
    subst hso
    rw [htake]
    simp [hterm]
  · rw [if_neg hterm] at h
    obtain ⟨w, hww, hrw⟩ := Option.map_eq_some'.mp h
    obtain ⟨o, oc, st', k', sp⟩ := w
    have hterm' : token_ends_a_sentence (start_token st R k) = false := by
      revert hterm
      cases token_ends_a_sentence (start_token st R k) <;> simp
    have hout0 : token_ends_a_sentence ((start_token st R k).take (n - 1)) = false := by
      rw [htake]
      exact hterm'
    have hiff := walkAux_outcome R n n st _ _ _ 0 o oc st' k' sp hterm' hout0 hww
    subst hrw
    have hos : o = s := Option.some.inj hs
    subst hos
    exact hiff

theorem outcome_matches_last_char_witness :
    (1 : Nat) ≤ 6 ∧ (start_token stA R0 0).length + 1 ≤ 6 ∧
    generate_full stA R0 0 6 = some rA ∧ rA.out = some [65, 32, 98] ∧
    (rA.outcome = Outcome.terminal ↔ token_ends_a_sentence [65, 32, 98] = true) := by
  refine ⟨by omega, by decide, rfl, by decide, ?_⟩
  exact outcome_matches_last_char stA R0 0 6 rA [65, 32, 98] (by omega) (by decide) rfl
    (by decide)
